import Mathlib

/-!
Verification of the balancing engine of `sway-balance-workspace`
(`src/main.rs`), shallowly embedded in Lean 4.

The embedding mirrors the Rust source function by function:

* `Node`, `Rect`, `NodeLayout` mirror the swayipc snapshot types used by
  the program (only the fields the program reads).
* `bfsearch`, `find_by_id`, `top_focus` mirror the breadth-first Locator.
* `min_swaps` mirrors the cycle-following swap computation; Rust panics
  (failed `assert!`, out-of-bounds index, failed `unwrap`) are modelled
  as `none`.  The inner `loop` of the source is bounded by an explicit
  fuel argument; every pass of the Rust loop either breaks or turns one
  `false` entry of `visited` to `true`, so `ord1.len() + 1` passes always
  suffice and the fuel-exhaustion branch is unreachable.
* `resize_node` mirrors the resize command construction; the external
  `conn.run_command` is an oracle argument giving the command's outcome.
* `balance` mirrors the work-queue loop; the external connection is an
  oracle (`BEnv`) giving the result of each `get_tree` and of each swap
  command, and a run is summarised by the identifiers dequeued, the swap
  commands issued, and the final outcome.

Machine integers (`i32` sizes, `i64` identifiers) are modelled as `Int`;
Rust `i32` division truncates toward zero, which is `Int.tdiv`.
-/

namespace SwayBalance

/-- Mirrors `swayipc::NodeLayout`: the two supported split orientations
plus the orientations the program treats as unsupported. -/
inductive NodeLayout where
  | SplitH
  | SplitV
  | Stacked
  | Tabbed
  | Output
  | NoneL
deriving DecidableEq, Repr

/-- Mirrors `swayipc::Rect` (the fields the program reads). -/
structure Rect where
  x : Int
  y : Int
  width : Int
  height : Int
deriving DecidableEq, Repr

/-- Mirrors the `swayipc::Node` snapshot: stable identifier, layout tag,
geometry, focus flag and the ordered list of children (`nodes`). -/
structure Node where
  id : Int
  layout : NodeLayout
  rect : Rect
  focused : Bool
  nodes : List Node
deriving Repr

/-- Mirrors `AppError` of `src/main.rs`. -/
inductive AppError where
  | Conn
  | GetTree
  | GetWorkspaces
  | Resize
  | Swap
  | NodeGone
  | NoFocus
deriving DecidableEq, Repr

mutual

/-- Number of nodes in a subtree (used as the termination measure of the
breadth-first queue loop). -/
def Node.size : Node → Nat
  | ⟨_, _, _, _, cs⟩ => 1 + sizeList cs

/-- Total number of nodes in a forest. -/
def sizeList : List Node → Nat
  | [] => 0
  | n :: ns => Node.size n + sizeList ns

end

theorem sizeList_append (a b : List Node) :
    sizeList (a ++ b) = sizeList a + sizeList b := by
  induction a with
  | nil => simp [sizeList]
  | cons n ns ih => simp [sizeList, ih]; omega

/-- The queue loop of `bfsearch` in `src/main.rs`: pop the front node,
return it if the predicate holds, otherwise push its children at the back
of the queue. -/
def bfsearchLoop (p : Node → Bool) : List Node → Option Node
  | [] => none
  | n :: q => if p n then some n else bfsearchLoop p (q ++ n.nodes)
termination_by q => sizeList q
decreasing_by
  cases n with
  | mk i l r f cs => simp [sizeList_append, sizeList, Node.size]; omega

/-- `bfsearch(root, predicate)`: breadth-first search seeded with the
root. -/
def bfsearch (root : Node) (p : Node → Bool) : Option Node :=
  bfsearchLoop p [root]

/-- `find_by_id(root, id)` of `src/main.rs`. -/
def find_by_id (root : Node) (i : Int) : Option Node :=
  bfsearch root (fun n => n.id == i)

/-- `top_focus(root)` of `src/main.rs`. -/
def top_focus (root : Node) : Option Node :=
  bfsearch root (fun n => n.focused)

/-- The list of nodes at exact depth `d` below a root, in left-to-right
order (`nodesAtDepth 0 t = [t]`). -/
def nodesAtDepth : Nat → Node → List Node
  | 0, t => [t]
  | d + 1, t => (t.nodes.map (nodesAtDepth d)).flatten

/-- Membership of a node in a subtree (at some depth). -/
def MemT (t : Node) (m : Node) : Prop :=
  ∃ d, m ∈ nodesAtDepth d t

theorem nodesAtDepth_zero (t : Node) : nodesAtDepth 0 t = [t] := rfl

theorem mem_nodesAtDepth_succ {m t : Node} {k : Nat} :
    m ∈ nodesAtDepth (k + 1) t ↔ ∃ c ∈ t.nodes, m ∈ nodesAtDepth k c := by
  simp only [nodesAtDepth, List.mem_flatten, List.mem_map]
  constructor
  · rintro ⟨l, ⟨c, hc, rfl⟩, hm⟩
    exact ⟨c, hc, hm⟩
  · rintro ⟨c, hc, hm⟩
    exact ⟨nodesAtDepth k c, ⟨c, hc, rfl⟩, hm⟩

/-- Membership in an annotated forest: `m` occurs at absolute depth `dm`,
where each queue entry carries the absolute depth of its root. -/
def FMem (F : List (Node × Nat)) (m : Node) (dm : Nat) : Prop :=
  ∃ td ∈ F, td.2 ≤ dm ∧ m ∈ nodesAtDepth (dm - td.2) td.1

theorem FMem_nil (m : Node) (dm : Nat) : ¬ FMem [] m dm := by
  rintro ⟨td, h, _⟩; simp at h

theorem FMem_cons {t : Node} {d : Nat} {F : List (Node × Nat)} {m : Node} {dm : Nat} :
    FMem ((t, d) :: F) m dm ↔
      (d ≤ dm ∧ m ∈ nodesAtDepth (dm - d) t) ∨ FMem F m dm := by
  unfold FMem
  simp only [List.mem_cons]
  constructor
  · rintro ⟨td, htd | htd, h1, h2⟩
    · subst htd; exact Or.inl ⟨h1, h2⟩
    · exact Or.inr ⟨td, htd, h1, h2⟩
  · rintro (⟨h1, h2⟩ | ⟨td, htd, h1, h2⟩)
    · exact ⟨(t, d), Or.inl rfl, h1, h2⟩
    · exact ⟨td, Or.inr htd, h1, h2⟩

theorem FMem_append {F1 F2 : List (Node × Nat)} {m : Node} {dm : Nat} :
    FMem (F1 ++ F2) m dm ↔ FMem F1 m dm ∨ FMem F2 m dm := by
  unfold FMem
  constructor
  · rintro ⟨td, htd, h⟩
    rcases List.mem_append.mp htd with h1 | h2
    · exact Or.inl ⟨td, h1, h⟩
    · exact Or.inr ⟨td, h2, h⟩
  · rintro (⟨td, htd, h⟩ | ⟨td, htd, h⟩)
    · exact ⟨td, List.mem_append.mpr (Or.inl htd), h⟩
    · exact ⟨td, List.mem_append.mpr (Or.inr htd), h⟩

theorem FMem_map_children {cs : List Node} {e : Nat} {m : Node} {dm : Nat} :
    FMem (cs.map (fun c => (c, e))) m dm ↔
      e ≤ dm ∧ ∃ c ∈ cs, m ∈ nodesAtDepth (dm - e) c := by
  unfold FMem
  constructor
  · rintro ⟨td, htd, h1, h2⟩
    rcases List.mem_map.mp htd with ⟨c, hc, rfl⟩
    exact ⟨h1, c, hc, h2⟩
  · rintro ⟨he, c, hc, hm⟩
    exact ⟨(c, e), List.mem_map.mpr ⟨c, hc, rfl⟩, he, hm⟩

/-- Splitting head-membership: `m` lies at depth `dm` in the subtree
rooted at `(t, d)` iff `m` is `t` itself (at `dm = d`) or lies in one of
`t`'s children re-rooted at depth `d + 1`. -/
theorem head_mem_split {t : Node} {d dm : Nat} {m : Node} :
    (d ≤ dm ∧ m ∈ nodesAtDepth (dm - d) t) ↔
      (dm = d ∧ m = t) ∨
      (d + 1 ≤ dm ∧ ∃ c ∈ t.nodes, m ∈ nodesAtDepth (dm - (d + 1)) c) := by
  constructor
  · rintro ⟨hd, hm⟩
    rcases Nat.eq_or_lt_of_le hd with heq | hlt
    · left
      subst heq
      simp [nodesAtDepth_zero] at hm
      exact ⟨rfl, hm⟩
    · right
      refine ⟨hlt, ?_⟩
      have hk : dm - d = (dm - (d + 1)) + 1 := by omega
      rw [hk] at hm
      exact mem_nodesAtDepth_succ.mp hm
  · rintro (⟨rfl, rfl⟩ | ⟨hd, c, hc, hm⟩)
    · simp [nodesAtDepth_zero]
    · refine ⟨by omega, ?_⟩
      have hk : dm - d = (dm - (d + 1)) + 1 := by omega
      rw [hk]
      exact mem_nodesAtDepth_succ.mpr ⟨c, hc, hm⟩

/-- Shape invariant of the annotated breadth-first queue: all entries sit
at depth `d` or `d + 1`, those at `d` first. -/
def Shaped (F : List (Node × Nat)) : Prop :=
  ∃ d a b, F.map Prod.snd = List.replicate a d ++ List.replicate b (d + 1)

theorem Shaped_nil : Shaped [] := ⟨0, 0, 0, rfl⟩

theorem Shaped_single (t : Node) (d : Nat) : Shaped [(t, d)] := by
  exact ⟨d, 1, 0, by simp⟩

theorem map_snd_annot (cs : List Node) (e : Nat) :
    (cs.map (fun c => (c, e))).map Prod.snd = List.replicate cs.length e := by
  induction cs with
  | nil => rfl
  | cons c cs ih => simp only [List.map_cons, List.length_cons, List.replicate_succ, ih]

theorem Shaped_cons_min {t : Node} {d : Nat} {F : List (Node × Nat)}
    (h : Shaped ((t, d) :: F)) : ∀ td ∈ (t, d) :: F, d ≤ td.2 := by
  obtain ⟨d', a, b, hmap⟩ := h
  have hall : ∀ td ∈ (t, d) :: F, td.2 = d' ∨ td.2 = d' + 1 := by
    intro td htd
    have hmem : td.2 ∈ ((t, d) :: F).map Prod.snd := List.mem_map.mpr ⟨td, htd, rfl⟩
    rw [hmap] at hmem
    rcases List.mem_append.mp hmem with h1 | h2
    · exact Or.inl (List.eq_of_mem_replicate h1)
    · exact Or.inr (List.eq_of_mem_replicate h2)
  have hd : d = d' ∨ d = d' + 1 := hall (t, d) (List.mem_cons_self _ _)
  intro td htd
  rcases hd with rfl | hd1
  · rcases hall td htd with h1 | h2 <;> omega
  · -- the head sits at depth d' + 1, so the depth-d' block must be empty
    match a, hmap with
    | 0, hmap =>
      rw [List.replicate_zero, List.nil_append] at hmap
      have hmem : td.2 ∈ ((t, d) :: F).map Prod.snd := List.mem_map.mpr ⟨td, htd, rfl⟩
      rw [hmap] at hmem
      have := List.eq_of_mem_replicate hmem
      omega
    | a' + 1, hmap =>
      rw [List.replicate_succ, List.cons_append, List.map_cons] at hmap
      obtain ⟨h1, -⟩ := List.cons_eq_cons.mp hmap
      omega

theorem Shaped_step {t : Node} {d : Nat} {F : List (Node × Nat)}
    (h : Shaped ((t, d) :: F)) :
    Shaped (F ++ t.nodes.map (fun c => (c, d + 1))) := by
  obtain ⟨d', a, b, hmap⟩ := h
  rw [List.map_cons] at hmap
  match a, hmap with
  | 0, hmap =>
    rw [List.replicate_zero, List.nil_append] at hmap
    match b, hmap with
    | 0, hmap => exact absurd hmap (by simp)
    | b' + 1, hmap =>
      rw [List.replicate_succ] at hmap
      obtain ⟨hd, hF⟩ := List.cons_eq_cons.mp hmap
      have hd' : d = d' + 1 := hd
      refine ⟨d, b', t.nodes.length, ?_⟩
      rw [List.map_append, hF, map_snd_annot, hd']
  | a' + 1, hmap =>
    rw [List.replicate_succ, List.cons_append] at hmap
    obtain ⟨hd, hF⟩ := List.cons_eq_cons.mp hmap
    subst hd
    refine ⟨d, a', b + t.nodes.length, ?_⟩
    rw [List.map_append, hF, map_snd_annot, List.append_assoc, ← List.replicate_add]

/-- Main invariant of the breadth-first queue loop: on a shaped annotated
queue, a successful search returns a node satisfying the predicate whose
absolute depth is minimal among all matching nodes in the queue. -/
theorem bfsearchLoop_found_aux (p : Node → Bool) :
    ∀ k (F : List (Node × Nat)), sizeList (F.map Prod.fst) = k → Shaped F →
      ∀ n, bfsearchLoop p (F.map Prod.fst) = some n →
      p n = true ∧ ∃ dn, FMem F n dn ∧
        ∀ m dm, FMem F m dm → p m = true → dn ≤ dm := by
  intro k
  induction k using Nat.strong_induction_on with
  | _ k ih =>
    intro F hk hS n h
    match F with
    | [] => simp [bfsearchLoop] at h
    | (t, d) :: F' =>
      rw [List.map_cons] at h hk
      simp only [bfsearchLoop] at h
      simp only [sizeList] at hk
      have hsize : Node.size t = 1 + sizeList t.nodes := by cases t; rfl
      by_cases hpt : p t = true
      · rw [if_pos hpt] at h
        obtain rfl : t = n := Option.some.inj h
        refine ⟨hpt, d, ?_, ?_⟩
        · refine FMem_cons.mpr (Or.inl ⟨le_refl d, ?_⟩)
          rw [Nat.sub_self, nodesAtDepth_zero]
          exact List.mem_singleton.mpr rfl
        · intro m dm hmem _
          obtain ⟨td, htd, h1, -⟩ := hmem
          have := Shaped_cons_min hS td htd
          omega
      · rw [if_neg hpt] at h
        have hrw : (F'.map Prod.fst) ++ t.nodes
            = (F' ++ t.nodes.map (fun c => (c, d + 1))).map Prod.fst := by
          simp [List.map_append, List.map_map, Function.comp_def, List.map_id']
        rw [hrw] at h
        have hsz : sizeList ((F' ++ t.nodes.map (fun c => (c, d + 1))).map Prod.fst) < k := by
          rw [← hrw, sizeList_append]
          omega
        obtain ⟨hpn, dn, hmem, hmin⟩ := ih _ hsz _ rfl (Shaped_step hS) n h
        refine ⟨hpn, dn, ?_, ?_⟩
        · rcases FMem_append.mp hmem with h1 | h2
          · exact FMem_cons.mpr (Or.inr h1)
          · rcases FMem_map_children.mp h2 with ⟨he, c, hc, hm⟩
            exact FMem_cons.mpr (Or.inl (head_mem_split.mpr (Or.inr ⟨he, c, hc, hm⟩)))
        · intro m dm hmem' hpm
          rcases FMem_cons.mp hmem' with h1 | h2
          · rcases head_mem_split.mp h1 with ⟨-, rfl⟩ | ⟨he, c, hc, hm⟩
            · exact absurd hpm hpt
            · exact hmin m dm
                (FMem_append.mpr (Or.inr (FMem_map_children.mpr ⟨he, c, hc, hm⟩))) hpm
          · exact hmin m dm (FMem_append.mpr (Or.inl h2)) hpm

/-- If the queue loop exhausts the queue, no node of any queued subtree
satisfies the predicate. -/
theorem bfsearchLoop_none_aux (p : Node → Bool) :
    ∀ k (q : List Node), sizeList q = k → bfsearchLoop p q = none →
      ∀ t ∈ q, ∀ m, MemT t m → p m = false := by
  intro k
  induction k using Nat.strong_induction_on with
  | _ k ih =>
    intro q hk h t ht m hm
    match q with
    | [] => simp at ht
    | t0 :: q' =>
      simp only [bfsearchLoop] at h
      simp only [sizeList] at hk
      have hsize : Node.size t0 = 1 + sizeList t0.nodes := by cases t0; rfl
      by_cases hpt : p t0 = true
      · rw [if_pos hpt] at h
        exact absurd h (by simp)
      · rw [if_neg hpt] at h
        have hsz : sizeList (q' ++ t0.nodes) < k := by
          rw [sizeList_append]; omega
        have hrec := ih _ hsz _ rfl h
        rcases List.mem_cons.mp ht with rfl | ht'
        · obtain ⟨dd, hmd⟩ := hm
          match dd, hmd with
          | 0, hmd =>
            rw [nodesAtDepth_zero] at hmd
            obtain rfl := List.mem_singleton.mp hmd
            simpa using hpt
          | dd + 1, hmd =>
            obtain ⟨c, hc, hmc⟩ := mem_nodesAtDepth_succ.mp hmd
            exact hrec c (List.mem_append.mpr (Or.inr hc)) m ⟨dd, hmc⟩
        · exact hrec t (List.mem_append.mpr (Or.inl ht')) m hm

theorem FMem_single_root {root m : Node} {dm : Nat} :
    FMem [(root, 0)] m dm ↔ m ∈ nodesAtDepth dm root := by
  constructor
  · intro h
    rcases FMem_cons.mp h with ⟨-, h2⟩ | h2
    · simpa using h2
    · exact absurd h2 (FMem_nil m dm)
  · intro h
    exact FMem_cons.mpr (Or.inl ⟨Nat.zero_le _, by simpa using h⟩)

/-- `bfsearch` soundness and depth minimality for a single root. -/
theorem bfsearch_found {root : Node} {p : Node → Bool} {n : Node}
    (h : bfsearch root p = some n) :
    p n = true ∧ ∃ dn, n ∈ nodesAtDepth dn root ∧
      ∀ m dm, m ∈ nodesAtDepth dm root → p m = true → dn ≤ dm := by
  have hq : ([root] : List Node) = ([(root, 0)] : List (Node × Nat)).map Prod.fst := rfl
  unfold bfsearch at h
  rw [hq] at h
  obtain ⟨hp, dn, hmem, hmin⟩ :=
    bfsearchLoop_found_aux p _ _ rfl (Shaped_single root 0) n h
  exact ⟨hp, dn, FMem_single_root.mp hmem,
    fun m dm hm hpm => hmin m dm (FMem_single_root.mpr hm) hpm⟩

/-- `bfsearch` completeness: an exhausted queue means no node matches. -/
theorem bfsearch_none {root : Node} {p : Node → Bool}
    (h : bfsearch root p = none) :
    ∀ m, MemT root m → p m = false := by
  intro m hm
  exact bfsearchLoop_none_aux p _ [root] rfl h root (by simp) m hm

/-- C7: for every tree containing at least one node with `focused = true`,
`top_focus` returns a focused node of minimal depth (the shallowest
focused node), never a deeper focused node, even when multiple nodes
along a focus path are flagged focused; for a tree with no focused node
it returns not-found. -/
theorem top_focus_shallowest (root : Node) :
    ((∃ d n, n ∈ nodesAtDepth d root ∧ n.focused = true) →
      ∃ n dn, top_focus root = some n ∧ n.focused = true ∧
        n ∈ nodesAtDepth dn root ∧
        ∀ d' m, m ∈ nodesAtDepth d' root → m.focused = true → dn ≤ d') ∧
    ((∀ d m, m ∈ nodesAtDepth d root → m.focused = false) →
      top_focus root = none) := by
  constructor
  · rintro ⟨d, n0, hmem, hfoc⟩
    match hres : top_focus root with
    | none =>
      unfold top_focus at hres
      have := bfsearch_none hres n0 ⟨d, hmem⟩
      rw [hfoc] at this
      exact absurd this (by simp)
    | some n =>
      unfold top_focus at hres
      obtain ⟨hp, dn, hmemn, hmin⟩ := bfsearch_found hres
      exact ⟨n, dn, rfl, hp, hmemn, fun d' m hm hf => hmin m d' hm hf⟩
  · intro hall
    match hres : top_focus root with
    | none => rfl
    | some n =>
      unfold top_focus at hres
      obtain ⟨hp, dn, hmemn, -⟩ := bfsearch_found hres
      rw [hall dn n hmemn] at hp
      exact absurd hp (by simp)

/-- Witness tree for C7: the root is unfocused, its only child (id 2) is
focused at depth 1, and that child's child (id 3) is focused at depth 2 —
a focus path with several flagged nodes. -/
def nodeW3 : Node := ⟨3, .NoneL, ⟨0, 0, 10, 10⟩, true, []⟩

def nodeW2 : Node := ⟨2, .SplitH, ⟨0, 0, 10, 10⟩, true, [nodeW3]⟩

def rootW : Node := ⟨1, .SplitH, ⟨0, 0, 10, 10⟩, false, [nodeW2]⟩

/-- Witness tree with no focused node. -/
def rootNoFocusW : Node := ⟨7, .NoneL, ⟨0, 0, 10, 10⟩, false, []⟩

/-- Witness for C7 at concrete trees. -/
theorem top_focus_shallowest_witness :
    (∃ n dn, top_focus rootW = some n ∧ n.focused = true ∧
        n ∈ nodesAtDepth dn rootW ∧
        ∀ d' m, m ∈ nodesAtDepth d' rootW → m.focused = true → dn ≤ d') ∧
    top_focus rootNoFocusW = none := by
  constructor
  · refine (top_focus_shallowest rootW).1 ⟨1, nodeW2, ?_, rfl⟩
    rw [show nodesAtDepth 1 rootW = [nodeW2] from rfl]
    exact List.mem_singleton.mpr rfl
  · refine (top_focus_shallowest rootNoFocusW).2 ?_
    intro d m hm
    match d, hm with
    | 0, hm =>
      rw [nodesAtDepth_zero] at hm
      obtain rfl := List.mem_singleton.mp hm
      rfl
    | d + 1, hm =>
      rw [show nodesAtDepth (d + 1) rootNoFocusW = [] from by
        simp [nodesAtDepth, rootNoFocusW]] at hm
      exact absurd hm (List.not_mem_nil m)

/-- C8: for every tree containing exactly one node with identifier `x`,
`find_by_id root x` returns that node; for every tree containing no node
with identifier `x`, it returns not-found. -/
theorem find_by_id_spec (root : Node) (x : Int) (n : Node) :
    ((MemT root n ∧ n.id = x ∧ (∀ m, MemT root m → m.id = x → m = n)) →
      find_by_id root x = some n) ∧
    ((∀ m, MemT root m → m.id ≠ x) → find_by_id root x = none) := by
  constructor
  · rintro ⟨hmem, hid, huniq⟩
    match hres : find_by_id root x with
    | none =>
      unfold find_by_id at hres
      have := bfsearch_none hres n hmem
      rw [show (n.id == x) = true from beq_iff_eq.mpr hid] at this
      exact absurd this (by simp)
    | some m =>
      unfold find_by_id at hres
      obtain ⟨hp, dm, hmemm, -⟩ := bfsearch_found hres
      have hmx : m.id = x := beq_iff_eq.mp hp
      rw [huniq m ⟨dm, hmemm⟩ hmx]
  · intro hall
    match hres : find_by_id root x with
    | none => rfl
    | some m =>
      unfold find_by_id at hres
      obtain ⟨hp, dm, hmemm, -⟩ := bfsearch_found hres
      exact absurd (beq_iff_eq.mp hp) (hall m ⟨dm, hmemm⟩)

/-- Every node of the witness tree is one of its three nodes. -/
theorem rootW_members : ∀ m, MemT rootW m → m = rootW ∨ m = nodeW2 ∨ m = nodeW3 := by
  rintro m ⟨d, hm⟩
  match d, hm with
  | 0, hm =>
    rw [nodesAtDepth_zero] at hm
    exact Or.inl (List.mem_singleton.mp hm)
  | 1, hm =>
    rw [show nodesAtDepth 1 rootW = [nodeW2] from rfl] at hm
    exact Or.inr (Or.inl (List.mem_singleton.mp hm))
  | 2, hm =>
    rw [show nodesAtDepth 2 rootW = [nodeW3] from rfl] at hm
    exact Or.inr (Or.inr (List.mem_singleton.mp hm))
  | d + 3, hm =>
    rw [show nodesAtDepth (d + 3) rootW = [] from by
      simp [nodesAtDepth, rootW, nodeW2, nodeW3]] at hm
    exact absurd hm (List.not_mem_nil m)

/-- Witness for C8 at a concrete tree: `rootW` contains id 3 exactly once
(at depth 2) and contains no node with id 99. -/
theorem find_by_id_spec_witness :
    find_by_id rootW 3 = some nodeW3 ∧ find_by_id rootW 99 = none := by
  constructor
  · refine (find_by_id_spec rootW 3 nodeW3).1 ⟨⟨2, ?_⟩, rfl, ?_⟩
    · rw [show nodesAtDepth 2 rootW = [nodeW3] from rfl]
      exact List.mem_singleton.mpr rfl
    · intro m hmem hid
      rcases rootW_members m hmem with rfl | rfl | rfl
      · simp [rootW] at hid
      · simp [nodeW2] at hid
      · rfl
  · refine (find_by_id_spec rootW 99 nodeW3).2 ?_
    intro m hmem
    rcases rootW_members m hmem with rfl | rfl | rfl
    · simp [rootW]
    · simp [nodeW2]
    · simp [nodeW3]

/-- The inner `loop` of `min_swaps` in `src/main.rs`.  State: the current
cycle position `idx`, the working copy `res` of `ord1`, the `visited`
flags and the accumulated `swaps`.  Rust panics (out-of-bounds index,
failed `unwrap`) are modelled as `none`.  Each pass either breaks or
turns one `false` entry of `visited` to `true`, so the loop runs at most
`visited.count false + 1 ≤ ord1.length + 1` passes; the explicit fuel
argument is instantiated with `ord1.length + 1` by `min_swaps` and its
exhaustion branch is unreachable. -/
def innerLoop (ord1 ord2 : List Int) (i : Nat) :
    Nat → Nat → List Int → List Bool → List (Int × Int) →
      Option (List Int × List Bool × List (Int × Int))
  | 0, _, _, _, _ => none
  | fuel + 1, idx, res, visited, swaps =>
    match res[i]?, ord2[i]? with
    | some ri, some oi =>
      if ri == oi then some (res, visited, swaps)
      else
        match visited[idx]? with
        | none => none
        | some true => some (res, visited, swaps)
        | some false =>
          let visited1 := visited.set idx true
          match res[idx]? with
          | none => none
          | some ridx =>
            match List.findIdx? (fun y => y == ridx) ord2 with
            | none => none
            | some target_idx =>
              match res[target_idx]? with
              | none => none
              | some rtarget =>
                let res1 := (res.set idx rtarget).set target_idx ridx
                match ord1[idx]?, ord1[target_idx]? with
                | some a, some b =>
                  innerLoop ord1 ord2 i fuel target_idx res1 visited1
                    (swaps ++ [(a, b)])
                | _, _ => none
    | _, _ => none

/-- `min_swaps(ord1, ord2)` of `src/main.rs`: the failed length assertion
and all panics inside the loop are modelled as `none`; on normal return
the accumulated swap list is produced. -/
def min_swaps (ord1 ord2 : List Int) : Option (List (Int × Int)) :=
  if ord1.length == ord2.length then
    ((List.range ord1.length).foldlM
        (fun st i => innerLoop ord1 ord2 i (ord1.length + 1) i st.1 st.2.1 st.2.2)
        (ord1, List.replicate ord1.length false, ([] : List (Int × Int)))).map
      (fun st => st.2.2)
  else none

/-- Modelled from the spec: applying one identifier-pair swap to an
order, as the external `swap container with con_id` command does — the
two identifiers exchange positions, every other identifier stays put. -/
def applySwap (l : List Int) (s : Int × Int) : List Int :=
  l.map (fun z => if z = s.1 then s.2 else if z = s.2 then s.1 else z)

/-- Modelled from the spec: applying a swap sequence in order. -/
def applySwaps (l : List Int) (ss : List (Int × Int)) : List Int :=
  ss.foldl applySwap l

/-- C2 (counterexample): on the 3-cycle `[1,2,3] → [2,3,1]`, `min_swaps`
returns three swaps — including the degenerate self-swap `(3,3)` — while
the cycle decomposition formula gives `3 - 1 = 2`; moreover replaying the
returned identifier swaps on `ord1` yields `[3,1,2]`, not `ord2`, whereas
the two swaps `(1,2), (1,3)` do transform `ord1` into `ord2`. -/
theorem min_swaps_cycle_counterexample :
    min_swaps [1, 2, 3] [2, 3, 1] = some [(1, 3), (3, 3), (2, 1)] ∧
    applySwaps [1, 2, 3] [(1, 3), (3, 3), (2, 1)] = [3, 1, 2] ∧
    applySwaps [1, 2, 3] [(1, 3), (3, 3), (2, 1)] ≠ [2, 3, 1] ∧
    applySwaps [1, 2, 3] [(1, 2), (1, 3)] = [2, 3, 1] := by
  exact ⟨by decide, by decide, by decide, by decide⟩

/-- When the current order already matches the target at position `i`,
the inner loop breaks immediately, leaving the state unchanged. -/
theorem innerLoop_self_break (ord : List Int) (visited : List Bool)
    (swaps : List (Int × Int)) (i idx fuel : Nat) (hi : i < ord.length) :
    innerLoop ord ord i (fuel + 1) idx ord visited swaps
      = some (ord, visited, swaps) := by
  have h : ord[i]? = some (ord[i]) := List.getElem?_eq_getElem hi
  simp [innerLoop, h]

/-- C10: for every list `ord`, `min_swaps ord ord` returns the empty swap
sequence — when the current order already equals the target order no
swaps are computed. -/
theorem min_swaps_self (ord : List Int) : min_swaps ord ord = some [] := by
  unfold min_swaps
  rw [if_pos (by simp)]
  have hfold : ∀ is : List Nat, (∀ j ∈ is, j < ord.length) →
      ∀ (v : List Bool) (s : List (Int × Int)),
      is.foldlM
          (fun st i => innerLoop ord ord i (ord.length + 1) i st.1 st.2.1 st.2.2)
          (ord, v, s)
        = some (ord, v, s) := by
    intro is
    induction is with
    | nil => intro _ v s; rfl
    | cons j js ih =>
      intro hj v s
      have hstep : innerLoop ord ord j (ord.length + 1) j ord v s
          = some (ord, v, s) :=
        innerLoop_self_break ord v s j j ord.length (hj j (List.mem_cons_self _ _))
      rw [List.foldlM_cons, hstep]
      exact ih (fun x hx => hj x (List.mem_cons_of_mem _ hx)) v s
  rw [hfold (List.range ord.length) (fun j hj => List.mem_range.mp hj) _ _]
  rfl

theorem findIdx?_some_bound {p : Int → Bool} :
    ∀ (xs : List Int) (i k : Nat), List.findIdx? p xs k = some i →
      k ≤ i ∧ i < k + xs.length := by
  intro xs
  induction xs with
  | nil => intro i k h; simp [List.findIdx?] at h
  | cons x xs ih =>
    intro i k h
    rw [List.findIdx?_cons] at h
    by_cases hp : p x
    · rw [if_pos hp] at h
      obtain rfl := Option.some.inj h
      simp
    · rw [if_neg hp] at h
      have := ih i (k + 1) h
      refine ⟨by omega, by simp only [List.length_cons]; omega⟩

theorem count_false_set_true (v : List Bool) (idx : Nat)
    (hlen : idx < v.length) (hv : v[idx] = false) :
    (v.set idx true).count false + 1 = v.count false := by
  have hcount := List.count_set true false v idx hlen
  rw [hv] at hcount
  have hpos : 0 < v.count false :=
    List.count_pos_iff.mpr (hv ▸ List.getElem_mem hlen)
  simp at hcount
  omega

/-- Totality of the inner cycle loop of `min_swaps`: as long as every
element of the working order occurs in `ord2`, every index lookup and the
position `unwrap` succeed, and the loop terminates within
`visited.count false + 1` passes. -/
theorem innerLoop_total (ord1 ord2 : List Int) (i : Nat) (hi : i < ord2.length)
    (hlen : ord1.length = ord2.length) :
    ∀ fuel (res : List Int) (visited : List Bool) (swaps : List (Int × Int)) idx,
      (∀ x ∈ res, x ∈ ord2) → res.length = ord2.length →
      visited.length = ord2.length → idx < ord2.length →
      visited.count false < fuel →
      ∃ res' visited' swaps',
        innerLoop ord1 ord2 i fuel idx res visited swaps
          = some (res', visited', swaps') ∧
        (∀ x ∈ res', x ∈ ord2) ∧ res'.length = ord2.length ∧
        visited'.length = ord2.length := by
  intro fuel
  induction fuel with
  | zero => intro res visited swaps idx _ _ _ _ hf; omega
  | succ fuel ih =>
    intro res visited swaps idx hres hrl hvl hidx hfuel
    have hi' : i < res.length := by omega
    have h1 : res[i]? = some (res[i]) := List.getElem?_eq_getElem hi'
    have h2 : ord2[i]? = some (ord2[i]) := List.getElem?_eq_getElem hi
    cases hbeq : res[i] == ord2[i] with
    | true =>
      exact ⟨res, visited, swaps, by simp [innerLoop, h1, h2, hbeq], hres, hrl, hvl⟩
    | false =>
      have hidx' : idx < visited.length := by omega
      have hvq : visited[idx]? = some (visited[idx]) :=
        List.getElem?_eq_getElem hidx'
      cases hvb : visited[idx] with
      | true =>
        refine ⟨res, visited, swaps, ?_, hres, hrl, hvl⟩
        rw [hvb] at hvq
        simp [innerLoop, h1, h2, hbeq, hvq]
      | false =>
        rw [hvb] at hvq
        have hidxr : idx < res.length := by omega
        have hridx : res[idx]? = some (res[idx]) :=
          List.getElem?_eq_getElem hidxr
        have hfind : ∃ t, List.findIdx? (fun y => y == res[idx]) ord2
            = some t := by
          match hf : List.findIdx? (fun y => y == res[idx]) ord2 with
          | some t => exact ⟨t, rfl⟩
          | none =>
            exfalso
            have hall := List.findIdx?_eq_none_iff.mp hf
            have hmem2 : res[idx] ∈ ord2 := hres _ (List.getElem_mem hidxr)
            have := hall _ hmem2
            simp at this
        obtain ⟨t, ht⟩ := hfind
        have htb := findIdx?_some_bound ord2 t 0 ht
        have htlen : t < ord2.length := by omega
        have htres : t < res.length := by omega
        have hrt : res[t]? = some (res[t]) := List.getElem?_eq_getElem htres
        have hio1 : idx < ord1.length := by omega
        have hto1 : t < ord1.length := by omega
        have ho1i : ord1[idx]? = some (ord1[idx]) := List.getElem?_eq_getElem hio1
        have ho1t : ord1[t]? = some (ord1[t]) := List.getElem?_eq_getElem hto1
        have hres1 : ∀ x ∈ (res.set idx (res[t])).set t (res[idx]),
            x ∈ ord2 := by
          intro x hx
          rcases List.mem_or_eq_of_mem_set hx with hx1 | rfl
          · rcases List.mem_or_eq_of_mem_set hx1 with hx2 | rfl
            · exact hres x hx2
            · exact hres _ (List.getElem_mem htres)
          · exact hres _ (List.getElem_mem hidxr)
        have hrl1 : ((res.set idx (res[t])).set t (res[idx])).length
            = ord2.length := by simp [hrl]
        have hvl1 : (visited.set idx true).length = ord2.length := by simp [hvl]
        have hcf : (visited.set idx true).count false < fuel := by
          have := count_false_set_true visited idx hidx' hvb
          omega
        obtain ⟨res', visited', swaps', hrun, ha, hb, hc⟩ :=
          ih ((res.set idx (res[t])).set t (res[idx]))
            (visited.set idx true) (swaps ++ [(ord1[idx], ord1[t])]) t
            hres1 hrl1 hvl1 htlen hcf
        refine ⟨res', visited', swaps', ?_, ha, hb, hc⟩
        rw [show innerLoop ord1 ord2 i (fuel + 1) idx res visited swaps
            = innerLoop ord1 ord2 i fuel t
                ((res.set idx (res[t])).set t (res[idx]))
                (visited.set idx true) (swaps ++ [(ord1[idx], ord1[t])])
          from by simp [innerLoop, h1, h2, hbeq, hvq, hridx, ht, hrt, ho1i, ho1t]]
        exact hrun

/-- C9: for any two lists that are permutations of each other,
`min_swaps` is total — the length assertion holds and every index lookup
and position `unwrap` inside the cycle-following loop succeeds, so no
panic is reachable. -/
theorem min_swaps_total (ord1 ord2 : List Int) (h : ord1.Perm ord2) :
    (min_swaps ord1 ord2).isSome := by
  unfold min_swaps
  rw [if_pos (by simp [h.length_eq])]
  have main : ∀ is : List Nat, (∀ j ∈ is, j < ord1.length) →
      ∀ (res : List Int) (v : List Bool) (s : List (Int × Int)),
      (∀ x ∈ res, x ∈ ord2) → res.length = ord2.length →
      v.length = ord2.length →
      ∃ st, is.foldlM
          (fun st i => innerLoop ord1 ord2 i (ord1.length + 1) i st.1 st.2.1 st.2.2)
          (res, v, s) = some st := by
    intro is
    induction is with
    | nil => intro _ res v s _ _ _; exact ⟨(res, v, s), rfl⟩
    | cons j js ih =>
      intro hj res v s hres hrl hvl
      have hjlen : j < ord2.length := by
        rw [← h.length_eq]; exact hj j (List.mem_cons_self _ _)
      have hcf : v.count false < ord1.length + 1 := by
        have h1 := List.count_le_length false v
        have h2 := h.length_eq
        omega
      obtain ⟨res', v', s', hrun, ha, hb, hc⟩ :=
        innerLoop_total ord1 ord2 j hjlen h.length_eq (ord1.length + 1)
          res v s j hres hrl hvl hjlen hcf
      rw [List.foldlM_cons, hrun]
      exact ih (fun x hx => hj x (List.mem_cons_of_mem _ hx)) res' v' s' ha hb hc
  obtain ⟨st, hst⟩ := main (List.range ord1.length)
    (fun j hj => List.mem_range.mp hj) ord1 (List.replicate ord1.length false) []
    (fun x hx => h.subset hx) h.length_eq (by simp [h.length_eq])
  rw [hst]
  rfl

/-- Witness for C9: a concrete permutation pair on which `min_swaps`
succeeds. -/
theorem min_swaps_total_witness :
    ([1, 2, 3] : List Int).Perm [2, 3, 1] ∧
      (min_swaps [1, 2, 3] [2, 3, 1]).isSome :=
  ⟨by decide, min_swaps_total [1, 2, 3] [2, 3, 1] (by decide)⟩

/-- A sub-command error as decoded from the external connection: the
parse/semantic kind (the one sway uses for "cannot resize further",
carrying its message) or any other kind. -/
inductive SwayCmdErr where
  | parse (msg : String)
  | other
deriving DecidableEq, Repr

deriving instance DecidableEq for Except

/-- Outcome of one `conn.run_command` round-trip: a transport-level
failure, or the vector of per-sub-command results. -/
inductive RunResult where
  | transport
  | results (rs : List (Except SwayCmdErr Unit))
deriving DecidableEq, Repr

/-- The command `[con_id={id}] resize shrink {dir} {diff} px`, captured
structurally: addressed container, direction label, pixel amount. -/
structure ResizeCmd where
  con_id : Int
  dir : String
  amount : Int
deriving DecidableEq, Repr

/-- Result of `resize_node`: a Rust panic (failed assertion or division
by zero), an `Ok(())` return without any command (unsupported layout),
or the issued command together with the value returned to the caller. -/
inductive ResizeOut where
  | panic
  | skipped
  | issued (cmd : ResizeCmd) (res : Except AppError Unit)
deriving DecidableEq, Repr

/-- The `match parent.layout` of `resize_node`: size accessor and growth
direction label; `none` is the `_ => return Ok(())` arm. -/
def resizeDims : NodeLayout → Option ((Node → Int) × String)
  | NodeLayout.SplitH => some (fun m => m.rect.width, "right")
  | NodeLayout.SplitV => some (fun m => m.rect.height, "down")
  | _ => none

/-- `resize_node` of `src/main.rs`.  The external `conn.run_command` is
the oracle `run`.  `desired_dim = get_dim(parent) / children.len()` uses
Rust `i32` division (truncation toward zero, `Int.tdiv`); an empty child
list would make it a division by zero, which panics in Rust.  The source
then computes `diff = get_dim(n) - desired_dim`, asserts `diff >= 0`
("Nodes are not ordered correctly"), and issues a single
`resize shrink {dir} {diff} px` command; the first entry of the result
vector decides the return value, any failure becoming
`AppError::Resize`. -/
def resize_node (run : ResizeCmd → RunResult) (n parent : Node) : ResizeOut :=
  match resizeDims parent.layout with
  | none => ResizeOut.skipped
  | some (get_dim, dir) =>
    if parent.nodes.length = 0 then ResizeOut.panic
    else
      let desired_dim := Int.tdiv (get_dim parent) (parent.nodes.length : Int)
      let diff := get_dim n - desired_dim
      if diff < 0 then ResizeOut.panic
      else
        let cmd : ResizeCmd := ⟨n.id, dir, diff⟩
        match run cmd with
        | RunResult.transport => ResizeOut.issued cmd (Except.error AppError.Resize)
        | RunResult.results rs =>
          match rs.head? with
          | none => ResizeOut.issued cmd (Except.error AppError.Resize)
          | some (Except.ok _) => ResizeOut.issued cmd (Except.ok ())
          | some (Except.error _) => ResizeOut.issued cmd (Except.error AppError.Resize)

/-- C3 (amended): for a parent with a supported split orientation and a
nonempty child list, `resize_node` computes
`diff = size(child) - desired_dim` (the opposite sign of the claimed
`desired_dim - size(child)`) with `desired_dim = size(parent) /
child_count` under truncating division; when `diff < 0` the assertion
`"Nodes are not ordered correctly"` fails — a panic, not a grow command —
and otherwise a single shrink command of magnitude `diff` is issued in
the axis-appropriate direction.  No grow command exists. -/
theorem resize_node_shrink_only (run : ResizeCmd → RunResult) (n parent : Node)
    (get_dim : Node → Int) (dir : String)
    (hgd : resizeDims parent.layout = some (get_dim, dir))
    (hne : parent.nodes.length ≠ 0) :
    (get_dim n - Int.tdiv (get_dim parent) (parent.nodes.length : Int) < 0 →
      resize_node run n parent = ResizeOut.panic) ∧
    (0 ≤ get_dim n - Int.tdiv (get_dim parent) (parent.nodes.length : Int) →
      ∃ r, resize_node run n parent
        = ResizeOut.issued
            ⟨n.id, dir, get_dim n - Int.tdiv (get_dim parent) (parent.nodes.length : Int)⟩
            r) := by
  constructor
  · intro hneg
    unfold resize_node
    rw [hgd]
    simp only [if_neg hne]
    rw [if_pos hneg]
  · intro hpos
    unfold resize_node
    rw [hgd]
    simp only [if_neg hne]
    rw [if_neg (by omega)]
    cases hrun : run ⟨n.id, dir,
        get_dim n - Int.tdiv (get_dim parent) (parent.nodes.length : Int)⟩ with
    | transport => exact ⟨Except.error AppError.Resize, rfl⟩
    | results rs =>
      dsimp only
      cases hh : rs.head? with
      | none => exact ⟨Except.error AppError.Resize, rfl⟩
      | some x =>
        cases x with
        | ok u => exact ⟨Except.ok (), rfl⟩
        | error e => exact ⟨Except.error AppError.Resize, rfl⟩

/-- Concrete nodes for the resize claims: a horizontal split of width 100
with two children of widths 60 and 40, so the mean is 50. -/
def childA : Node := ⟨20, NodeLayout.NoneL, ⟨0, 0, 60, 40⟩, false, []⟩

def childB : Node := ⟨21, NodeLayout.NoneL, ⟨60, 0, 40, 40⟩, false, []⟩

def parentAB : Node := ⟨10, NodeLayout.SplitH, ⟨0, 0, 100, 40⟩, false, [childA, childB]⟩

/-- An oracle answering every command with a single `Ok(())`. -/
def runAllOk : ResizeCmd → RunResult := fun _ => RunResult.results [Except.ok ()]

/-- An oracle answering every command with the domain-specific
"cannot resize further" parse error. -/
def runCannotResize : ResizeCmd → RunResult :=
  fun _ => RunResult.results [Except.error (SwayCmdErr.parse "Cannot resize further")]

/-- A parent with the same two children in the opposite order: `childB`
(width 40) is the FIRST of its two children, hence not the last. -/
def parentBA : Node := ⟨11, NodeLayout.SplitH, ⟨0, 0, 100, 40⟩, false, [childB, childA]⟩

/-- C3 (counterexample): `childB`, a non-last child of `parentBA`, has
width 40 < mean 50, so the claim predicts a grow command of magnitude
10 for it; the code instead fails its assertion
(`"Nodes are not ordered correctly"`) and panics, issuing nothing. -/
theorem resize_node_grow_case_panics :
    resize_node runAllOk childB parentBA = ResizeOut.panic := by decide

/-- Witness for C3 at a concrete input: `childA` (width 60 > mean 50)
gets a shrink command of magnitude 10 pointing right. -/
theorem resize_node_shrink_only_witness :
    ∃ r, resize_node runAllOk childA parentAB
      = ResizeOut.issued
          ⟨childA.id, "right",
            childA.rect.width - Int.tdiv parentAB.rect.width (parentAB.nodes.length : Int)⟩
          r :=
  (resize_node_shrink_only runAllOk childA parentAB (fun m => m.rect.width) "right"
    rfl (by decide)).2 (by decide)

/-- C5 (amended): every failing resize command outcome — transport
failure, empty result vector, or a per-command error, including the
domain-specific "cannot resize further" parse error — is mapped to the
fatal `AppError::Resize` and returned to the caller; there is no retry
anywhere in `resize_node` or its caller. -/
theorem resize_node_failure_fatal (run : ResizeCmd → RunResult) (n parent : Node)
    (get_dim : Node → Int) (dir : String) (diff : Int)
    (hgd : resizeDims parent.layout = some (get_dim, dir))
    (hne : parent.nodes.length ≠ 0)
    (hdiff : diff = get_dim n - Int.tdiv (get_dim parent) (parent.nodes.length : Int))
    (hpos : 0 ≤ diff)
    (hfail : run ⟨n.id, dir, diff⟩ = RunResult.transport ∨
      run ⟨n.id, dir, diff⟩ = RunResult.results [] ∨
      ∃ e rs, run ⟨n.id, dir, diff⟩ = RunResult.results (Except.error e :: rs)) :
    resize_node run n parent
      = ResizeOut.issued ⟨n.id, dir, diff⟩ (Except.error AppError.Resize) := by
  subst hdiff
  unfold resize_node
  rw [hgd]
  simp only [if_neg hne]
  rw [if_neg (by omega)]
  rcases hfail with hf | hf | ⟨e, rs, hf⟩ <;> rw [hf] <;> rfl

/-- C5 (counterexample): when the command result is the
"cannot resize further" error, `resize_node` returns
`Err(AppError::Resize)` to its caller — the domain-specific failure IS
propagated as an error, and no retry exists. -/
theorem resize_node_cannot_resize_propagates :
    resize_node runCannotResize childA parentAB
      = ResizeOut.issued ⟨20, "right", 10⟩ (Except.error AppError.Resize) := by
  decide

/-- Witness for C5 at a concrete input, applying the amended theorem. -/
theorem resize_node_failure_fatal_witness :
    resize_node runCannotResize childA parentAB
      = ResizeOut.issued ⟨childA.id, "right", 10⟩ (Except.error AppError.Resize) :=
  resize_node_failure_fatal runCannotResize childA parentAB
    (fun m => m.rect.width) "right" 10 rfl (by decide) (by decide) (by decide)
    (Or.inr (Or.inr ⟨SwayCmdErr.parse "Cannot resize further", [], rfl⟩))

/-- Environment oracle of a `balance` run: the snapshot returned by the
`t`-th `get_tree` query (`none` models a transport failure) and the
outcome of the `c`-th `run_command` (swap) call.  The external window
manager may serve a different tree on every query, so the oracle is a
function of the query counter. -/
structure BEnv where
  trees : Nat → Option Node
  swapRes : Nat → RunResult

/-- `get_latest_info` of `src/main.rs`: re-fetch a node by identifier
from a freshly queried tree. -/
def get_latest_info (treeRes : Option Node) (node_id : Int) :
    Except AppError Node :=
  match treeRes with
  | none => Except.error AppError.GetTree
  | some tree =>
    match find_by_id tree node_id with
    | none => Except.error AppError.NodeGone
    | some n => Except.ok n

/-- The accessor pair chosen by `balance`'s `match cur.layout`; `none`
is the `_ => unreachable!("Handled in caller")` arm. -/
def balanceDims : NodeLayout → Option ((Node → Int) × (Node → Int))
  | NodeLayout.SplitH => some (fun m => m.rect.width, fun m => m.rect.x)
  | NodeLayout.SplitV => some (fun m => m.rect.height, fun m => m.rect.y)
  | _ => none

/-- Result handling of one swap command in `balance`'s loop:
`run_command(..).map_err(Swap)?.pop().ok_or(Swap)?.map_err(Swap)?` —
`Ok` only when the transport succeeded, the result vector is nonempty
(`pop` takes its last entry) and that entry is `Ok`. -/
def swapOutcome : RunResult → Except AppError Unit
  | RunResult.transport => Except.error AppError.Swap
  | RunResult.results rs =>
    match rs.getLast? with
    | none => Except.error AppError.Swap
    | some (Except.ok _) => Except.ok ()
    | some (Except.error _) => Except.error AppError.Swap

/-- The swap loop of `balance`: issue each swap command in order and
abort at the first failure.  Returns the next command counter, the
commands issued (in order, the failing one included) and the error, if
any. -/
def runSwaps (env : BEnv) : Nat → List (Int × Int) →
    Nat × List (Int × Int) × Option AppError
  | c, [] => (c, [], none)
  | c, (x, y) :: rest =>
    match swapOutcome (env.swapRes c) with
    | Except.error e => (c + 1, [(x, y)], some e)
    | Except.ok _ =>
      let r := runSwaps env (c + 1) rest
      (r.1, (x, y) :: r.2.1, r.2.2)

/-- Stable insertion into a list sorted by `le`. -/
def insertBy (le : Node → Node → Bool) (x : Node) : List Node → List Node
  | [] => [x]
  | y :: ys => if le x y then x :: y :: ys else y :: insertBy le x ys

/-- `Vec::sort_by` of the source: a stable sort.  A stable sort is
uniquely determined by its comparator, so stable insertion sort is
extensionally the same function as the timsort Rust uses. -/
def sort_by (le : Node → Node → Bool) : List Node → List Node
  | [] => []
  | x :: xs => insertBy le x (sort_by le xs)

/-- Final outcome of a `balance` run: normal return, an `AppError`, or a
Rust panic (`unreachable!` or a failed `unwrap`). -/
inductive BalanceResult where
  | ok
  | err (e : AppError)
  | panic
deriving DecidableEq, Repr

/-- Observable summary of a `balance` run: outcome, identifiers dequeued
from the work queue (in order) and swap commands issued (in order). -/
structure BalanceRun where
  result : BalanceResult
  processed : List Int
  swapsIssued : List (Int × Int)
deriving DecidableEq, Repr

/-- The work-queue loop of `balance` in `src/main.rs`, over the queue of
node identifiers, threading the `get_tree` counter `t` and the
`run_command` counter `c`.  Mirrors the active code: children are NOT
enqueued (the `q.extend(..)` call is commented out in the source), the
resize phase is likewise commented out, and the per-node debug print
loop `find_by_id(root, *id).unwrap()` over the target order panics when
an identifier is missing from the original root snapshot. -/
def balanceLoop (env : BEnv) (root : Node) :
    List Int → Nat → Nat → BalanceRun
  | [], _, _ => ⟨BalanceResult.ok, [], []⟩
  | curId :: q, t, c =>
    match get_latest_info (env.trees t) curId with
    | Except.error e => ⟨BalanceResult.err e, [curId], []⟩
    | Except.ok cur =>
      if cur.nodes.isEmpty then
        let r := balanceLoop env root q (t + 1) c
        ⟨r.result, curId :: r.processed, r.swapsIssued⟩
      else
        match balanceDims cur.layout with
        | none => ⟨BalanceResult.panic, [curId], []⟩
        | some (get_dim, _get_pos) =>
          let sorted_nodes := sort_by (fun a b => decide (get_dim b ≤ get_dim a)) cur.nodes
          let initial_order := cur.nodes.map (fun m => m.id)
          let target_order := sorted_nodes.map (fun m => m.id)
          match min_swaps initial_order target_order with
          | none => ⟨BalanceResult.panic, [curId], []⟩
          | some swaps =>
            if target_order.all (fun j => (find_by_id root j).isSome) then
              match runSwaps env c swaps with
              | (_, tr, some e) => ⟨BalanceResult.err e, [curId], tr⟩
              | (c', tr, none) =>
                let r := balanceLoop env root q (t + 1) c'
                ⟨r.result, curId :: r.processed, tr ++ r.swapsIssued⟩
            else ⟨BalanceResult.panic, [curId], []⟩

/-- `balance(conn, root)` of `src/main.rs`: the queue is seeded with the
root's identifier only. -/
def balance (env : BEnv) (root : Node) : BalanceRun :=
  balanceLoop env root [root.id] 0 0

/-- C1 (code evaluation): whatever tree the environment serves, the only
identifier `balance` ever dequeues and processes is the target root's —
the `q.extend(cur.nodes...)` call of the breadth-first walk is commented
out in the source, so no child is ever enqueued and no descendant is
ever processed. -/
theorem balance_processes_only_root (env : BEnv) (root : Node) :
    (balance env root).processed = [root.id] := by
  unfold balance
  rw [balanceLoop]
  repeat' (first | split | dsimp only)
  all_goals simp [balanceLoop]

/-- Concrete tree for C4: a tabbed container with one child. -/
def tabbedChild : Node := ⟨31, NodeLayout.NoneL, ⟨0, 0, 50, 50⟩, false, []⟩

def tabbedRoot : Node := ⟨30, NodeLayout.Tabbed, ⟨0, 0, 100, 100⟩, false, [tabbedChild]⟩

/-- A static environment serving the tabbed tree forever, with every
command succeeding. -/
def tabbedEnv : BEnv := ⟨fun _ => some tabbedRoot, fun _ => RunResult.results [Except.ok ()]⟩

/-- C4 (code evaluation): on a node whose layout is not a supported split
orientation but which has children, `balance` does not skip the node —
it hits `unreachable!("Handled in caller")` and aborts the program, even
though no caller filters such nodes. -/
theorem balance_unsupported_layout_panics :
    balance tabbedEnv tabbedRoot = ⟨BalanceResult.panic, [30], []⟩ := by
  rw [balance, show tabbedRoot.id = 30 from rfl, balanceLoop]
  rw [show get_latest_info (tabbedEnv.trees 0) 30 = Except.ok tabbedRoot from by
    simp [tabbedEnv, get_latest_info, find_by_id, bfsearch, bfsearchLoop, tabbedRoot]]
  rfl

theorem swapOutcome_of_fail {r : RunResult}
    (h : swapOutcome r ≠ Except.ok ()) :
    swapOutcome r = Except.error AppError.Swap := by
  cases r with
  | transport => rfl
  | results rs =>
    cases hl : rs.getLast? with
    | none => simp [swapOutcome, hl]
    | some x =>
      cases x with
      | ok u => exact absurd (by simp [swapOutcome, hl]) h
      | error e => simp [swapOutcome, hl]

/-- The swap loop aborts at the first failing command: when the first `k`
commands succeed and command `k` fails, exactly `k + 1` commands are
issued and the error is `AppError::Swap`. -/
theorem runSwaps_fail (env : BEnv) :
    ∀ (swaps : List (Int × Int)) (c k : Nat), k < swaps.length →
      (∀ j, j < k → swapOutcome (env.swapRes (c + j)) = Except.ok ()) →
      swapOutcome (env.swapRes (c + k)) ≠ Except.ok () →
      runSwaps env c swaps = (c + k + 1, swaps.take (k + 1), some AppError.Swap) := by
  intro swaps
  induction swaps with
  | nil => intro c k hk _ _; simp at hk
  | cons s rest ih =>
    intro c k hk hok hfail
    obtain ⟨x, y⟩ := s
    match k with
    | 0 =>
      have hf0 : swapOutcome (env.swapRes c) = Except.error AppError.Swap := by
        have := swapOutcome_of_fail (by simpa using hfail)
        simpa using this
      rw [runSwaps, hf0]
      simp
    | k + 1 =>
      have h0 : swapOutcome (env.swapRes c) = Except.ok () := by
        simpa using hok 0 (by omega)
      rw [runSwaps, h0]
      have hrec := ih (c + 1) k (by simpa using hk)
        (fun j hj => by
          have := hok (j + 1) (by omega)
          have heq : c + (j + 1) = c + 1 + j := by omega
          rw [heq] at this
          exact this)
        (by
          have heq : c + 1 + k = c + (k + 1) := by omega
          rw [heq]
          exact hfail)
      dsimp only
      rw [hrec]
      simp only [List.take_succ_cons]
      have harith : c + 1 + k + 1 = c + (k + 1) + 1 := by omega
      rw [harith]

/-- C6: a failing swap command — transport error, empty result vector, or
per-command error — is fatal: `balance` returns `AppError::Swap`
immediately, the issued command trace ends with the failing command (no
further commands are issued), and the commands already issued stay as
they are (no rollback commands are appended). -/
theorem balance_swap_failure_aborts
    (env : BEnv) (root tree cur : Node)
    (get_dim get_pos : Node → Int) (swaps : List (Int × Int)) (k : Nat)
    (htree : env.trees 0 = some tree)
    (hfind : find_by_id tree root.id = some cur)
    (hne : cur.nodes.isEmpty = false)
    (hdims : balanceDims cur.layout = some (get_dim, get_pos))
    (hsw : min_swaps (cur.nodes.map (fun m => m.id))
        ((sort_by (fun a b => decide (get_dim b ≤ get_dim a)) cur.nodes).map
          (fun m => m.id)) = some swaps)
    (hdbg : ((sort_by (fun a b => decide (get_dim b ≤ get_dim a)) cur.nodes).map
        (fun m => m.id)).all (fun j => (find_by_id root j).isSome) = true)
    (hk : k < swaps.length)
    (hok : ∀ j, j < k → swapOutcome (env.swapRes j) = Except.ok ())
    (hfail : swapOutcome (env.swapRes k) ≠ Except.ok ()) :
    balance env root
      = ⟨BalanceResult.err AppError.Swap, [root.id], swaps.take (k + 1)⟩ := by
  unfold balance
  rw [balanceLoop]
  rw [show get_latest_info (env.trees 0) root.id = Except.ok cur from by
    rw [htree]; unfold get_latest_info; dsimp only; rw [hfind]]
  dsimp only
  simp only [hne, Bool.false_eq_true, if_false]
  rw [hdims]
  dsimp only
  rw [hsw]
  dsimp only
  simp only [hdbg, if_true]
  rw [runSwaps_fail env swaps 0 k hk
    (fun j hj => by simpa using hok j hj)
    (by simpa using hfail)]

/-- Concrete tree for the C6 witness: a horizontal split whose children
(widths 40 and 60) are not in descending width order, so one swap is
computed; the environment fails every swap command at the transport
level. -/
def swapChildA : Node := ⟨41, NodeLayout.NoneL, ⟨0, 0, 40, 50⟩, false, []⟩

def swapChildB : Node := ⟨42, NodeLayout.NoneL, ⟨40, 0, 60, 50⟩, false, []⟩

def swapRoot : Node := ⟨40, NodeLayout.SplitH, ⟨0, 0, 100, 50⟩, false, [swapChildA, swapChildB]⟩

def swapFailEnv : BEnv := ⟨fun _ => some swapRoot, fun _ => RunResult.transport⟩

/-- Witness for C6: the single computed swap `(41, 42)` fails at the
transport level; `balance` aborts with `AppError::Swap` after issuing
exactly that one command. -/
theorem balance_swap_failure_aborts_witness :
    balance swapFailEnv swapRoot
      = ⟨BalanceResult.err AppError.Swap, [40], [(41, 42)]⟩ := by
  have h := balance_swap_failure_aborts swapFailEnv swapRoot swapRoot swapRoot
    (fun m => m.rect.width) (fun m => m.rect.x) [(41, 42)] 0
    rfl
    (by simp [find_by_id, bfsearch, bfsearchLoop, swapRoot])
    (by decide)
    rfl
    (by decide)
    (by simp [sort_by, insertBy, swapRoot, swapChildA, swapChildB,
      find_by_id, bfsearch, bfsearchLoop])
    (by decide)
    (fun j hj => absurd hj (Nat.not_lt_zero j))
    (by decide)
  simpa using h

end SwayBalance
